import Mathlib

/- Shallow embedding of the keyword-spotting, windowing and scoring engine of
   scripts/analyze.py, together with the transcript timestamp writer of
   scripts/download_transcriptions.py.

   Python strings are modelled as `List Char`.  `str.lower` is modelled with
   `Char.toLower`, which is exact on the ASCII range used by the analysis
   pipeline.  Python `int(...)` is modelled for optionally signed decimal
   digit strings surrounded by ASCII whitespace (underscore digit grouping and
   non-ASCII digits are not modelled).  Python floats are modelled as exact
   rationals.  File-system access in the batch loop is modelled by an oracle
   field on each catalogued video: `none` for a file that does not exist,
   `some none` for a file that exists but raises on read, and
   `some (some ls)` for a readable transcript whose raw lines are `ls`. -/

/-- The ASCII whitespace characters stripped by Python `str.strip()`. -/
def isPyWs (c : Char) : Bool :=
  c == ' ' || c == '\t' || c == '\n' || c == '\r' || c == '\x0b' || c == '\x0c'

/-- Python `str.strip()` (both ends, whitespace). -/
def pyStrip (s : List Char) : List Char :=
  ((s.dropWhile isPyWs).reverse.dropWhile isPyWs).reverse

/-- Python `str.lower()` (exact on ASCII). -/
def pyLower (s : List Char) : List Char := s.map Char.toLower

/-- Worker for Python `str.count`: counts non-overlapping occurrences of the
nonempty pattern `pat`, scanning left to right and skipping over each match.
The fuel argument is an upper bound on the remaining scan length, making the
recursion structural. -/
def pyCountFuel (pat : List Char) : Nat → List Char → Nat
  | 0, _ => 0
  | _ + 1, [] => 0
  | fuel + 1, c :: rest =>
      if pat.isPrefixOf (c :: rest) then
        pyCountFuel pat fuel (List.drop (pat.length - 1) rest) + 1
      else
        pyCountFuel pat fuel rest

/-- Python `s.count(pat)`: number of non-overlapping occurrences of `pat` in
`s` (for an empty pattern Python returns `len(s) + 1`). -/
def pyCount (s pat : List Char) : Nat :=
  if pat.isEmpty then s.length + 1 else pyCountFuel pat s.length s

/-- `count_keyword_occurrences_in_line` from scripts/analyze.py:
lower-cases both operands, prepends one space to the text and counts
occurrences of one space followed by the lower-cased keyword. -/
def count_keyword_occurrences_in_line (text kw : List Char) : Nat :=
  pyCount (' ' :: pyLower text) (' ' :: pyLower kw)

/-- Number of positions of `s` at which the pattern `pat` occurs, counting
overlapping occurrences once per position.  Used as the specification-side
reading of "number of occurrences of the keyword preceded by a space". -/
def occCountSpec (pat : List Char) : List Char → Nat
  | [] => 0
  | c :: rest =>
      (if pat.isPrefixOf (c :: rest) then 1 else 0) + occCountSpec pat rest

/-- Whether `pat` occurs anywhere inside `s` (substring containment). -/
def containsSub (s pat : List Char) : Bool :=
  (List.range (s.length + 1)).any (fun i => pat.isPrefixOf (s.drop i))

/-- Python `str.find(c)`: index of the first occurrence, if any. -/
def pyFind (c : Char) : List Char → Option Nat
  | [] => none
  | a :: l => if a = c then some 0 else (pyFind c l).map (· + 1)

/-- Python `s.split(sep)` for a single-character separator. -/
def pySplit (sep : Char) : List Char → List (List Char)
  | [] => [[]]
  | c :: rest =>
      let r := pySplit sep rest
      if c = sep then [] :: r
      else
        match r with
        | [] => [[c]]
        | h :: t => (c :: h) :: t

/-- Helper for Python `int(...)`: a nonempty all-digit string is converted
with the given sign, anything else raises (modelled as `none`). -/
def digitsToInt (sgn : Int) (ds : List Char) : Option Int :=
  if !ds.isEmpty && ds.all Char.isDigit then
    some (sgn * (ds.foldl (fun acc c => 10 * acc + (c.toNat - 48)) 0 : Nat))
  else none

/-- Value of a decimal digit string. -/
def decValue (ds : List Char) : Nat :=
  ds.foldl (fun acc c => 10 * acc + (c.toNat - 48)) 0

/-- Python `int(str)` on optionally signed decimal strings with surrounding
whitespace; returns `none` where Python raises `ValueError`. -/
def pyInt (s : List Char) : Option Int :=
  match pyStrip s with
  | [] => none
  | c :: r =>
      if c = '+' then digitsToInt 1 r
      else if c = '-' then digitsToInt (-1) r
      else digitsToInt 1 (c :: r)

/-- `timestamp_to_seconds` from scripts/analyze.py: split on a colon,
two parts are mm:ss, three parts are hh:mm:ss, everything else (or a
component on which `int` raises) yields 0. -/
def timestamp_to_seconds (ts_str : List Char) : Int :=
  if ts_str = [] then 0
  else
    match pySplit ':' ts_str with
    | [a, b] =>
        match pyInt a, pyInt b with
        | some minutes, some seconds => minutes * 60 + seconds
        | _, _ => 0
    | [a, b, c] =>
        match pyInt a, pyInt b, pyInt c with
        | some hours, some minutes, some seconds =>
            hours * 3600 + minutes * 60 + seconds
        | _, _, _ => 0
    | _ => 0

/-- Literal "1:05". -/
def lit105 : List Char := "1:05".data

/-- Literal "1:02:03". -/
def lit10203 : List Char := "1:02:03".data

/-- Literal "bad:val". -/
def litBadVal : List Char := "bad:val".data

/-- Literal "-1:30". -/
def litNeg130 : List Char := "-1:30".data

/-- Literal "0:99". -/
def lit099 : List Char := "0:99".data

/-- Literal "kredyt". -/
def litKredyt : List Char := "kredyt".data

/-- Literal "Kredyt is good". -/
def litKredytIsGood : List Char := "Kredyt is good".data

/-- Literal "50%". -/
def lit50pct : List Char := "50%".data

/-- Literal "0%". -/
def lit0pct : List Char := "0%".data

/-- Literal "kredytu jest". -/
def litKredytu : List Char := "kredytu jest".data

example : timestamp_to_seconds lit105 = 65 := by decide
example : timestamp_to_seconds lit10203 = 3723 := by decide
example : timestamp_to_seconds [] = 0 := by decide
example : timestamp_to_seconds litBadVal = 0 := by decide
example : timestamp_to_seconds litNeg130 = -30 := by decide
example : timestamp_to_seconds lit099 = 99 := by decide
example : count_keyword_occurrences_in_line litKredytIsGood litKredyt = 1 := by decide
example : count_keyword_occurrences_in_line lit50pct lit0pct = 0 := by decide
example : count_keyword_occurrences_in_line litKredytu litKredyt = 1 := by decide

/-- `parse_line` from scripts/analyze.py: strip the line; if it starts with a
left bracket and contains a right bracket, the characters between them are
the timestamp and everything after the right bracket (stripped) is the text;
otherwise the timestamp is empty and the text is the stripped line.  Returns
`(timestamp, text, stripped full line)`. -/
def parse_line (line_content : List Char) : List Char × List Char × List Char :=
  let lc := pyStrip line_content
  match pyFind ']' lc with
  | some i =>
      if lc.head? = some '[' then
        ((lc.drop 1).take (i - 1), pyStrip (lc.drop (i + 1)), lc)
      else ([], lc, lc)
  | none => ([], lc, lc)

/-- The per-line trigger test of `analyze_transcriptions`: some keyword has a
positive occurrence count in the line's text. -/
def line_has_keyword (text : List Char) (keywords : List (List Char)) : Bool :=
  keywords.any (fun kw => 0 < count_keyword_occurrences_in_line text kw)

/-- Hit-collection loop of `analyze_transcriptions`: for each line index `i`
whose text triggers, record `(max 0 (i - R), min (n-1) (i + R), i)` where `n`
is the number of lines (`i - R` is truncated ℕ subtraction, i.e. the max).
`i` is the running index, `n` the total line count. -/
def find_hits_go (n : Nat) (keywords : List (List Char)) (R : Nat) :
    Nat → List (List Char × List Char × List Char) → List (Nat × Nat × Nat)
  | _, [] => []
  | i, pl :: rest =>
      (if line_has_keyword pl.2.1 keywords then [(i - R, min (n - 1) (i + R), i)] else [])
        ++ find_hits_go n keywords R (i + 1) rest

/-- All hits of a parsed transcript, in line order. -/
def find_hits (parsed_lines : List (List Char × List Char × List Char))
    (keywords : List (List Char)) (R : Nat) : List (Nat × Nat × Nat) :=
  find_hits_go parsed_lines.length keywords R 0 parsed_lines

/-- `hits.sort(key=lambda x: x[0])` — a stable sort by window start. -/
def sortHits (hits : List (Nat × Nat × Nat)) : List (Nat × Nat × Nat) :=
  hits.insertionSort (fun a b => a.1 ≤ b.1)

/-- One step of the merge loop of `analyze_transcriptions`: the accumulator
holds the emitted windows and the open window `(current_start, current_end,
indexes_in_range)`, if any. -/
def mergeStep (acc : List (Nat × Nat × List Nat) × Option (Nat × Nat × List Nat))
    (h : Nat × Nat × Nat) : List (Nat × Nat × List Nat) × Option (Nat × Nat × List Nat) :=
  match acc.2 with
  | none => (acc.1, some (h.1, h.2.1, [h.2.2]))
  | some (cs, ce, idxs) =>
      if h.1 ≤ ce + 1 then (acc.1, some (cs, max ce h.2.1, idxs ++ [h.2.2]))
      else (acc.1 ++ [(cs, ce, idxs)], some (h.1, h.2.1, [h.2.2]))

/-- Post-loop flush of the open window, if any. -/
def merge_finish (p : List (Nat × Nat × List Nat) × Option (Nat × Nat × List Nat)) :
    List (Nat × Nat × List Nat) :=
  match p.2 with
  | none => p.1
  | some w => p.1 ++ [w]

/-- The merge loop of `analyze_transcriptions` over a (sorted) hit list. -/
def merge_hits (hits : List (Nat × Nat × Nat)) : List (Nat × Nat × List Nat) :=
  merge_finish (hits.foldl mergeStep ([], none))

/-- Modelled from the spec's words (§4.4 Window Builder), for comparison with
`merge_hits`: the explicit state machine over the hit sequence.  With no open
window a hit opens one; with an open window, a candidate whose start is at
most `current_end + 1` extends it (max of ends, trigger appended), otherwise
the open window is emitted and the candidate opens a new one; the final open
window is flushed. -/
def windows_spec_go : Option (Nat × Nat × List Nat) → List (Nat × Nat × Nat) →
    List (Nat × Nat × List Nat)
  | none, [] => []
  | some w, [] => [w]
  | none, (s, e, i) :: t => windows_spec_go (some (s, e, [i])) t
  | some (cs, ce, idxs), (s, e, i) :: t =>
      if s ≤ ce + 1 then windows_spec_go (some (cs, max ce e, idxs ++ [i])) t
      else (cs, ce, idxs) :: windows_spec_go (some (s, e, [i])) t

/-- Modelled from the spec's words: the whole Window Builder state machine. -/
def windows_spec (hits : List (Nat × Nat × Nat)) : List (Nat × Nat × List Nat) :=
  windows_spec_go none hits

/-- The full per-transcript window pipeline of `analyze_transcriptions`:
parse every raw line, collect hits with context radius `R`, sort by start and
merge. -/
def analyze_windows (raw_lines keywords : List (List Char)) (R : Nat) :
    List (Nat × Nat × List Nat) :=
  merge_hits (sortHits (find_hits (raw_lines.map parse_line) keywords R))

/-- `CONTEXT_LINES` from scripts/analyze.py. -/
def CONTEXT_LINES : Nat := 5

/-- Python dict update/insert on an association list: an existing key has its
value replaced in place, a new key is appended. -/
def dictInsert (d : List (List Char × Nat)) (k : List Char) (v : Nat) :
    List (List Char × Nat) :=
  if d.any (fun p => decide (p.1 = k)) then
    d.map (fun p => if p.1 = k then (p.1, v) else p)
  else d ++ [(k, v)]

/-- Python dict lookup on an association list (keys are unique in a dict;
a missing key is modelled as 0, which the analysis never relies on because
`count_keywords_in_extended_lines` initialises every keyword). -/
def dictGet (d : List (List Char × Nat)) (k : List Char) : Nat :=
  match d.find? (fun p => decide (p.1 = k)) with
  | some p => p.2
  | none => 0

/-- The dict comprehension initialising every keyword's count to 0. -/
def dictInit (keywords : List (List Char)) : List (List Char × Nat) :=
  keywords.foldl (fun d kw => dictInsert d kw 0) []

/-- `count_keywords_in_extended_lines` from scripts/analyze.py: for each line
and each keyword, add the line's occurrence count to the keyword's entry. -/
def count_keywords_in_extended_lines (extended_lines keywords : List (List Char)) :
    List (List Char × Nat) :=
  extended_lines.foldl
    (fun counts line =>
      keywords.foldl
        (fun c kw => dictInsert c kw (dictGet c kw + count_keyword_occurrences_in_line line kw))
        counts)
    (dictInit keywords)

/-- `weights.get(kw, 1.0)` — dict lookup with default weight 1. -/
def weightsGet (weights : List (List Char × Rat)) (kw : List Char) : Rat :=
  match weights.find? (fun p => decide (p.1 = kw)) with
  | some p => p.2
  | none => 1

/-- `calculate_score` from scripts/analyze.py: over the per-keyword counts,
a keyword with a positive count contributes `count * weight` to the score and
joins the found list. -/
def calculate_score (extended_lines keywords : List (List Char))
    (weights : List (List Char × Rat)) : Rat × List (List Char) :=
  (count_keywords_in_extended_lines extended_lines keywords).foldl
    (fun acc p =>
      if 0 < p.2 then (acc.1 + (p.2 : Rat) * weightsGet weights p.1, acc.2 ++ [p.1])
      else acc)
    (0, [])

/-- Specification-side per-keyword total: the sum over the window's lines of
the Keyword Matcher's count on each line's text. -/
def totalKwCount (lines : List (List Char)) (kw : List Char) : Nat :=
  (lines.map (fun line => count_keyword_occurrences_in_line line kw)).sum

/-- Modelled from the spec's words (§4.5 Scorer, claim C1): the same scorer
but with each keyword counted by one application of the Keyword Matcher to
the newline-joined window text. -/
def calculate_score_joined (extended_lines keywords : List (List Char))
    (weights : List (List Char × Rat)) : Rat × List (List Char) :=
  (keywords.map
      (fun kw => (kw, count_keyword_occurrences_in_line (List.intercalate ['\n'] extended_lines) kw))).foldl
    (fun acc p =>
      if 0 < p.2 then (acc.1 + (p.2 : Rat) * weightsGet weights p.1, acc.2 ++ [p.1])
      else acc)
    (0, [])

/-- The decimal digit characters used by Python's integer formatting. -/
def toDigitChar : Nat → Char
  | 0 => '0'
  | 1 => '1'
  | 2 => '2'
  | 3 => '3'
  | 4 => '4'
  | 5 => '5'
  | 6 => '6'
  | 7 => '7'
  | 8 => '8'
  | _ => '9'

/-- Decimal representation of a natural number, with fuel making the
recursion structural (`fuel` bounds the number of digits). -/
def natToDecFuel : Nat → Nat → List Char
  | 0, _ => []
  | fuel + 1, n =>
      if n < 10 then [toDigitChar n]
      else natToDecFuel fuel (n / 10) ++ [toDigitChar (n % 10)]

/-- Python's decimal formatting of a natural number (`f"{n}"`). -/
def natToDec (n : Nat) : List Char := natToDecFuel (n + 1) n

/-- Python's decimal formatting of an integer (`f"{i}"`). -/
def intToDec (i : Int) : List Char :=
  if i < 0 then '-' :: natToDec i.natAbs else natToDec i.toNat

/-- Python `f"{n:02d}"` for a natural number: zero-pad to width two. -/
def pad2 (n : Nat) : List Char :=
  if n < 10 then '0' :: natToDec n else natToDec n

/-- The timestamp writer of `save_transcript` in
scripts/download_transcriptions.py: `minutes, seconds = divmod(n, 60)` and
`f"{minutes}:{seconds:02d}"`. -/
def format_mm_ss (n : Nat) : List Char :=
  natToDec (n / 60) ++ ':' :: pad2 (n % 60)

/-- Python string comparison (lexicographic by code point), as used by
`sorted(found_keywords)`. -/
def lexLe : List Char → List Char → Bool
  | [], _ => true
  | _ :: _, [] => false
  | a :: as, b :: bs => if a = b then lexLe as bs else decide (a < b)

/-- `sorted(...)` on a list of strings. -/
def sortStrings (l : List (List Char)) : List (List Char) :=
  l.insertionSort (fun a b => lexLe a b = true)

/-- Python `round(q, 0)` followed by `int(...)`: round-half-to-even to an
integer (the float arithmetic is idealised as exact rationals). -/
def pyRound0 (q : Rat) : Int :=
  let f := q.floor
  if q - f < 1 / 2 then f
  else if (1 : Rat) / 2 < q - f then f + 1
  else if f % 2 = 0 then f else f + 1

/-- Literal "0:00", the fallback timestamp. -/
def lit000 : List Char := "0:00".data

/-- Literal URL head "https://www.youtube.com/watch?v=". -/
def litWatchUrl : List Char := "https://www.youtube.com/watch?v=".data

/-- Literal "&t=". -/
def litTEq : List Char := "&t=".data

/-- Literal ", " (the join separator for found keywords). -/
def litCommaSpace : List Char := ", ".data

/-- One record appended to `results` by `analyze_transcriptions`. -/
structure Excerpt where
  videoId : List Char
  guest : List Char
  publishedAt : List Char
  keywords_found : List Char
  timestamp_start : List Char
  timestamp_end : List Char
  length_seconds : Int
  transcription_lines : List Char
  score : Int
  youtube_link : List Char
deriving DecidableEq

/-- The excerpt-assembly body of the `for (s, e, idx_list) in merged` loop of
`analyze_transcriptions`, for one merged window. -/
def mkExcerpt (videoId guest publishedAt : List Char)
    (parsed : List (List Char × List Char × List Char))
    (keywords : List (List Char)) (weights : List (List Char × Rat))
    (w : Nat × Nat × List Nat) : Excerpt :=
  let s := w.1
  let e := w.2.1
  let extended_texts := ((parsed.drop s).take (e + 1 - s)).map (fun pl => pl.2.1)
  let transcription_lines := List.intercalate ['\n'] extended_texts
  let ts_s := (parsed.getD s ([], [], [])).1
  let timestamp_start := if ts_s = [] then lit000 else ts_s
  let ts_e := (parsed.getD e ([], [], [])).1
  let timestamp_end := if ts_e = [] then lit000 else ts_e
  let p := calculate_score extended_texts keywords weights
  let start_seconds := timestamp_to_seconds timestamp_start
  let end_seconds := timestamp_to_seconds timestamp_end
  { videoId := videoId
    guest := guest
    publishedAt := publishedAt
    keywords_found := List.intercalate litCommaSpace (sortStrings p.2)
    timestamp_start := timestamp_start
    timestamp_end := timestamp_end
    length_seconds := max 0 (end_seconds - start_seconds)
    transcription_lines := transcription_lines
    score := pyRound0 p.1
    youtube_link := litWatchUrl ++ videoId ++ litTEq ++ intToDec start_seconds ++ ['s'] }

/-- One catalogued video as seen by the batch loop.  The `file` oracle
models the file system: `none` when the transcription file does not exist,
`some none` when it exists but reading raises, `some (some ls)` when it is
readable with raw lines `ls`. -/
structure VideoEntry where
  videoId : List Char
  channelHandle : List Char
  guest : List Char
  publishedAt : List Char
  file : Option (Option (List (List Char)))
deriving DecidableEq

/-- An entry of the `missing_transcriptions` list: the nonexistent-file path
appends a dict with videoId/channelHandle/publishedAt, the read-error path
appends the bare video-id string. -/
inductive MissingEntry where
  | record (videoId channelHandle publishedAt : List Char)
  | bare (videoId : List Char)
deriving DecidableEq

/-- The mutable state of the batch loop of `analyze_transcriptions`. -/
structure BatchState where
  results : List Excerpt
  missing : List MissingEntry
  noKeywords : Nat
  processed : Nat
deriving DecidableEq

/-- The body of the per-video loop of `analyze_transcriptions`. -/
def analyze_step (keywords : List (List Char)) (weights : List (List Char × Rat))
    (R : Nat) (st : BatchState) (v : VideoEntry) : BatchState :=
  match v.file with
  | none =>
      { st with missing := st.missing ++ [MissingEntry.record v.videoId v.channelHandle v.publishedAt] }
  | some none =>
      { st with missing := st.missing ++ [MissingEntry.bare v.videoId] }
  | some (some raw_lines) =>
      let parsed := raw_lines.map parse_line
      let hits := find_hits parsed keywords R
      if hits = [] then { st with noKeywords := st.noKeywords + 1 }
      else
        let merged := merge_hits (sortHits hits)
        { st with
            results := st.results ++ merged.map (mkExcerpt v.videoId v.guest v.publishedAt parsed keywords weights)
            processed := st.processed + 1 }

/-- The batch loop of `analyze_transcriptions` over the catalogued videos. -/
def analyze_transcriptions (videos : List VideoEntry) (keywords : List (List Char))
    (weights : List (List Char × Rat)) (R : Nat) : BatchState :=
  videos.foldl (analyze_step keywords weights R) ⟨[], [], 0, 0⟩

/-- Shape test on a missing-transcriptions entry. -/
def missing_entry_is_record : MissingEntry → Bool
  | .record _ _ _ => true
  | .bare _ => false

/-- The missing-transcripts CSV writer (`csv.DictWriter` with fields
videoId/channelHandle/publishedAt): each record entry becomes a row; a bare
string entry makes `writerows` raise, modelled as `none`. -/
def write_missing_rows : List MissingEntry → Option (List (List Char × List Char × List Char))
  | [] => some []
  | e :: rest =>
      match e with
      | .record a b c => (write_missing_rows rest).map (fun rs => (a, b, c) :: rs)
      | .bare _ => none


/-- A list none of whose elements satisfies `p` is unchanged by `dropWhile`. -/
theorem dropWhile_eq_self_of (p : Char → Bool) (l : List Char)
    (h : ∀ c ∈ l, p c = false) : l.dropWhile p = l := by
  cases l with
  | nil => rfl
  | cons c t => simp [List.dropWhile_cons, h c (List.mem_cons_self c t)]

/-- Stripping a list with no whitespace characters is the identity. -/
theorem pyStrip_eq_self_of (l : List Char) (h : ∀ c ∈ l, isPyWs c = false) :
    pyStrip l = l := by
  unfold pyStrip
  rw [dropWhile_eq_self_of _ l h,
    dropWhile_eq_self_of _ l.reverse (fun c hc => h c (List.mem_reverse.mp hc)),
    List.reverse_reverse]

/-- `isPrefixOf` agrees with the existence of a completing tail. -/
theorem isPrefixOf_spec : ∀ (p l : List Char), p.isPrefixOf l = true ↔ ∃ t, l = p ++ t := by
  intro p
  induction p with
  | nil =>
      intro l
      constructor
      · intro _
        exact ⟨l, (List.nil_append l).symm⟩
      · intro _
        cases l <;> simp [List.isPrefixOf]
  | cons a as ih =>
      intro l
      cases l with
      | nil => simp [List.isPrefixOf]
      | cons b bs =>
          simp only [List.isPrefixOf, Bool.and_eq_true, beq_iff_eq, ih bs,
            List.cons_append, List.cons.injEq]
          constructor
          · rintro ⟨rfl, t, rfl⟩
            exact ⟨t, rfl, rfl⟩
          · rintro ⟨t, rfl, rfl⟩
            exact ⟨rfl, t, rfl⟩

/-- Skipping characters that cannot start a space-headed pattern does not
change the number of matched positions. -/
theorem occ_skip (k : List Char) : ∀ (k' : List Char), (∀ c ∈ k', c ≠ ' ') →
    ∀ t : List Char, occCountSpec (' ' :: k) (k' ++ t) = occCountSpec (' ' :: k) t := by
  intro k'
  induction k' with
  | nil => intro _ t; rfl
  | cons c k'' ih =>
      intro hk' t
      have hc : c ≠ ' ' := hk' c (List.mem_cons_self _ _)
      have hpref : ¬ (' ' :: k).isPrefixOf (c :: (k'' ++ t)) = true := by
        intro hp
        rcases (isPrefixOf_spec _ _).mp hp with ⟨u, hu⟩
        rw [List.cons_append, List.cons.injEq] at hu
        exact hc hu.1
      rw [List.cons_append]
      have hstep : occCountSpec (' ' :: k) (c :: (k'' ++ t))
          = (if (' ' :: k).isPrefixOf (c :: (k'' ++ t)) = true then 1 else 0)
            + occCountSpec (' ' :: k) (k'' ++ t) := rfl
      rw [hstep, if_neg hpref, Nat.zero_add]
      exact ih (fun c hc => hk' c (List.mem_cons_of_mem _ hc)) t

/-- With enough fuel, the non-overlapping scan of a space-headed pattern whose
tail contains no space counts exactly the matched positions. -/
theorem pyCountFuel_eq_occ (k : List Char) (hk : ∀ c ∈ k, c ≠ ' ') :
    ∀ (fuel : Nat) (s : List Char), s.length ≤ fuel →
      pyCountFuel (' ' :: k) fuel s = occCountSpec (' ' :: k) s := by
  intro fuel
  induction fuel with
  | zero =>
      intro s hs
      have hnil : s = [] := List.eq_nil_of_length_eq_zero (Nat.le_zero.mp hs)
      subst hnil
      rfl
  | succ fuel ih =>
      intro s hs
      cases s with
      | nil => rfl
      | cons c rest =>
          have hlen : rest.length ≤ fuel := by
            simp only [List.length_cons] at hs
            omega
          by_cases hp : (' ' :: k).isPrefixOf (c :: rest) = true
          · rcases (isPrefixOf_spec _ _).mp hp with ⟨u, hu⟩
            rw [List.cons_append, List.cons.injEq] at hu
            obtain ⟨h1, h2⟩ := hu
            subst h1
            subst h2
            have hstep : pyCountFuel (' ' :: k) (fuel + 1) (' ' :: (k ++ u))
                = pyCountFuel (' ' :: k) fuel (List.drop ((' ' :: k).length - 1) (k ++ u)) + 1 := by
              simp only [pyCountFuel]
              rw [if_pos hp]
            have hdrop : List.drop ((' ' :: k).length - 1) (k ++ u) = u := by
              simp only [List.length_cons, Nat.add_sub_cancel]
              exact List.drop_left k u
            have hu_len : u.length ≤ fuel := by
              have hl := List.length_append k u
              rw [hl] at hlen
              omega
            rw [hstep, hdrop, ih u hu_len]
            have hocc : occCountSpec (' ' :: k) (' ' :: (k ++ u))
                = (if (' ' :: k).isPrefixOf (' ' :: (k ++ u)) = true then 1 else 0)
                  + occCountSpec (' ' :: k) (k ++ u) := rfl
            rw [hocc, if_pos hp, occ_skip k k hk u, Nat.add_comm]
          · have hstep : pyCountFuel (' ' :: k) (fuel + 1) (c :: rest)
                = pyCountFuel (' ' :: k) fuel rest := by
              simp only [pyCountFuel]
              rw [if_neg hp]
            have hocc : occCountSpec (' ' :: k) (c :: rest)
                = (if (' ' :: k).isPrefixOf (c :: rest) = true then 1 else 0)
                  + occCountSpec (' ' :: k) rest := rfl
            rw [hstep, hocc, if_neg hp, ih rest hlen, Nat.zero_add]

/-- For a keyword whose lower-cased form contains no space, the Keyword
Matcher counts exactly the positions at which the space-prefixed lower-cased
keyword occurs in the space-prefixed lower-cased text. -/
theorem count_eq_occ (text kw : List Char) (h : ' ' ∉ pyLower kw) :
    count_keyword_occurrences_in_line text kw
      = occCountSpec (' ' :: pyLower kw) (' ' :: pyLower text) := by
  unfold count_keyword_occurrences_in_line pyCount
  simp only [List.isEmpty_cons, Bool.false_eq_true, if_false]
  exact pyCountFuel_eq_occ (pyLower kw) (fun c hc heq => h (heq ▸ hc)) _ _ (le_refl _)

/-- A positive scan count exhibits a matched position. -/
theorem pyCountFuel_pos_mem (pat : List Char) :
    ∀ (fuel : Nat) (s : List Char), 0 < pyCountFuel pat fuel s →
      ∃ i, i < s.length + 1 ∧ pat.isPrefixOf (s.drop i) = true := by
  intro fuel
  induction fuel with
  | zero => intro s hpos; simp [pyCountFuel] at hpos
  | succ fuel ih =>
      intro s hpos
      cases s with
      | nil => simp [pyCountFuel] at hpos
      | cons c rest =>
          by_cases hp : pat.isPrefixOf (c :: rest) = true
          · exact ⟨0, by simp, hp⟩
          · have hstep : pyCountFuel pat (fuel + 1) (c :: rest)
                = pyCountFuel pat fuel rest := by
              simp only [pyCountFuel]
              rw [if_neg hp]
            rw [hstep] at hpos
            rcases ih rest hpos with ⟨i, hi, hpi⟩
            refine ⟨i + 1, ?_, ?_⟩
            · simp only [List.length_cons]
              omega
            · simpa using hpi

/-- If the lower-cased keyword occurs nowhere in the lower-cased text, the
Keyword Matcher returns 0. -/
theorem count_zero_of_not_contains (text kw : List Char)
    (h : containsSub (pyLower text) (pyLower kw) = false) :
    count_keyword_occurrences_in_line text kw = 0 := by
  by_contra hne
  have hpos : 0 < count_keyword_occurrences_in_line text kw := Nat.pos_of_ne_zero hne
  unfold count_keyword_occurrences_in_line pyCount at hpos
  simp only [List.isEmpty_cons, Bool.false_eq_true, if_false] at hpos
  obtain ⟨i, _, hp⟩ := pyCountFuel_pos_mem _ _ _ hpos
  have hmem : ∃ m, m < (pyLower text).length + 1
      ∧ (pyLower kw).isPrefixOf ((pyLower text).drop m) = true := by
    cases i with
    | zero =>
        rcases (isPrefixOf_spec _ _).mp hp with ⟨u, hu⟩
        rw [List.drop_zero, List.cons_append, List.cons.injEq] at hu
        refine ⟨0, Nat.succ_pos _, ?_⟩
        rw [List.drop_zero, (isPrefixOf_spec _ _)]
        exact ⟨u, hu.2⟩
    | succ j =>
        have hdj : (' ' :: pyLower text).drop (j + 1) = (pyLower text).drop j := rfl
        rw [hdj] at hp
        rcases (isPrefixOf_spec _ _).mp hp with ⟨u, hu⟩
        have hj : j < (pyLower text).length := by
          by_contra hge
          have : (pyLower text).drop j = [] := List.drop_eq_nil_of_le (Nat.le_of_not_lt hge)
          rw [this] at hu
          exact List.noConfusion hu
        refine ⟨j + 1, by omega, ?_⟩
        have : (pyLower text).drop (j + 1) = pyLower kw ++ u := by
          have h1 : (pyLower text).drop (j + 1) = ((pyLower text).drop j).drop 1 := by
            rw [List.drop_drop]
          rw [h1, hu]
          rfl
        rw [(isPrefixOf_spec _ _)]
        exact ⟨u, this⟩
  obtain ⟨m, hm, hpm⟩ := hmem
  have : containsSub (pyLower text) (pyLower kw) = true := by
    unfold containsSub
    rw [List.any_eq_true]
    exact ⟨m, List.mem_range.mpr hm, hpm⟩
  rw [this] at h
  exact Bool.noConfusion h

/-- Claim C4, counterexample: the lower-cased keyword "0%" occurs in the text
"50%" as a strict suffix of the longer word "50%", yet the Keyword Matcher
counts 0 occurrences — refuting the claim's assertion that a keyword
occurring as a strict suffix of a longer word still counts. -/
theorem claim_C4_counterexample :
    count_keyword_occurrences_in_line lit50pct lit0pct = 0
      ∧ pyLower lit0pct <:+ pyLower lit50pct
      ∧ pyLower lit0pct ≠ pyLower lit50pct := by decide

/-- Claim C4 (amended): for every text and every keyword whose lower-cased
form contains no space, `count(text, keyword)` lower-cases both operands and
returns the number of occurrences of the lower-cased keyword preceded by a
space character within the text prefixed by one synthetic leading space (so a
keyword at line start or after a space counts, a keyword that is a strict
prefix of a longer word still counts — there is no trailing-boundary check —
while a keyword occurring only as a strict suffix of a longer word does not);
count never raises (it is total) and returns 0 whenever the lower-cased
keyword does not occur in the lower-cased text; in particular
`count("Kredyt is good", "kredyt") == 1` and `count("kredytu jest",
"kredyt") == 1`. -/
theorem claim_C4 :
    (∀ text kw : List Char, ' ' ∉ pyLower kw →
        count_keyword_occurrences_in_line text kw
          = occCountSpec (' ' :: pyLower kw) (' ' :: pyLower text))
    ∧ (∀ text kw : List Char, containsSub (pyLower text) (pyLower kw) = false →
        count_keyword_occurrences_in_line text kw = 0)
    ∧ count_keyword_occurrences_in_line litKredytIsGood litKredyt = 1
    ∧ count_keyword_occurrences_in_line litKredytu litKredyt = 1 :=
  ⟨fun text kw h => count_eq_occ text kw h,
   fun text kw h => count_zero_of_not_contains text kw h,
   by decide, by decide⟩

/-- Witness for claim C4 at a concrete input. -/
theorem claim_C4_witness :
    count_keyword_occurrences_in_line litKredytIsGood litKredyt
      = occCountSpec (' ' :: pyLower litKredyt) (' ' :: pyLower litKredytIsGood) :=
  claim_C4.1 litKredytIsGood litKredyt (by decide)

/-- On a two-part split, `timestamp_to_seconds` reduces to the mm:ss match. -/
theorem tts_two (ts a b : List Char) (hs : pySplit ':' ts = [a, b]) :
    timestamp_to_seconds ts
      = (match pyInt a, pyInt b with
         | some minutes, some seconds => minutes * 60 + seconds
         | _, _ => 0) := by
  have hne : ts ≠ [] := by
    intro h
    subst h
    simp [pySplit] at hs
  unfold timestamp_to_seconds
  rw [if_neg hne, hs]

/-- On a three-part split, `timestamp_to_seconds` reduces to the hh:mm:ss
match. -/
theorem tts_three (ts a b c : List Char) (hs : pySplit ':' ts = [a, b, c]) :
    timestamp_to_seconds ts
      = (match pyInt a, pyInt b, pyInt c with
         | some hours, some minutes, some seconds => hours * 3600 + minutes * 60 + seconds
         | _, _, _ => 0) := by
  have hne : ts ≠ [] := by
    intro h
    subst h
    simp [pySplit] at hs
  unfold timestamp_to_seconds
  rw [if_neg hne, hs]

/-- Two numeric parts are read as mm:ss with no range or sign checks. -/
theorem tts_two_some (ts a b : List Char) (x y : Int) (hs : pySplit ':' ts = [a, b])
    (ha : pyInt a = some x) (hb : pyInt b = some y) :
    timestamp_to_seconds ts = x * 60 + y := by
  rw [tts_two ts a b hs, ha, hb]

/-- Three numeric parts are read as hh:mm:ss with no range or sign checks. -/
theorem tts_three_some (ts a b c : List Char) (x y z : Int)
    (hs : pySplit ':' ts = [a, b, c]) (ha : pyInt a = some x) (hb : pyInt b = some y)
    (hc : pyInt c = some z) :
    timestamp_to_seconds ts = x * 3600 + y * 60 + z := by
  rw [tts_three ts a b c hs, ha, hb, hc]

/-- A non-numeric component of a two-part timestamp yields 0. -/
theorem tts_two_none (ts a b : List Char) (hs : pySplit ':' ts = [a, b])
    (h : pyInt a = none ∨ pyInt b = none) :
    timestamp_to_seconds ts = 0 := by
  rw [tts_two ts a b hs]
  split
  · rcases h with h | h <;> simp_all
  · rfl

/-- A non-numeric component of a three-part timestamp yields 0. -/
theorem tts_three_none (ts a b c : List Char) (hs : pySplit ':' ts = [a, b, c])
    (h : pyInt a = none ∨ pyInt b = none ∨ pyInt c = none) :
    timestamp_to_seconds ts = 0 := by
  rw [tts_three ts a b c hs]
  split
  · rcases h with h | h | h <;> simp_all
  · rfl

/-- Any part count other than two or three yields 0. -/
theorem tts_other (ts : List Char) (h2 : (pySplit ':' ts).length ≠ 2)
    (h3 : (pySplit ':' ts).length ≠ 3) :
    timestamp_to_seconds ts = 0 := by
  by_cases hne : ts = []
  · subst hne
    rfl
  · unfold timestamp_to_seconds
    rw [if_neg hne]
    rcases hp : pySplit ':' ts with _ | ⟨a, _ | ⟨b, _ | ⟨c, _ | ⟨d, t⟩⟩⟩⟩
    · rfl
    · rfl
    · rw [hp] at h2
      simp at h2
    · rw [hp] at h3
      simp at h3
    · rfl

/-- Claim C5: `timestamp_to_seconds` splits its input on a colon and
interprets exactly 2 parts as mm:ss and exactly 3 parts as hh:mm:ss; any
non-numeric component or any other part count yields 0 (the function is total
and never raises); in particular 1:05 is 65 seconds, 1:02:03 is 3723 seconds,
the empty string is 0 and bad:val is 0. -/
theorem claim_C5 :
    (∀ (ts a b : List Char) (x y : Int), pySplit ':' ts = [a, b] →
        pyInt a = some x → pyInt b = some y →
        timestamp_to_seconds ts = x * 60 + y)
    ∧ (∀ (ts a b c : List Char) (x y z : Int), pySplit ':' ts = [a, b, c] →
        pyInt a = some x → pyInt b = some y → pyInt c = some z →
        timestamp_to_seconds ts = x * 3600 + y * 60 + z)
    ∧ (∀ ts a b : List Char, pySplit ':' ts = [a, b] →
        pyInt a = none ∨ pyInt b = none → timestamp_to_seconds ts = 0)
    ∧ (∀ ts a b c : List Char, pySplit ':' ts = [a, b, c] →
        pyInt a = none ∨ pyInt b = none ∨ pyInt c = none → timestamp_to_seconds ts = 0)
    ∧ (∀ ts : List Char, (pySplit ':' ts).length ≠ 2 → (pySplit ':' ts).length ≠ 3 →
        timestamp_to_seconds ts = 0)
    ∧ timestamp_to_seconds lit105 = 65
    ∧ timestamp_to_seconds lit10203 = 3723
    ∧ timestamp_to_seconds [] = 0
    ∧ timestamp_to_seconds litBadVal = 0 :=
  ⟨fun ts a b x y hs ha hb => tts_two_some ts a b x y hs ha hb,
   fun ts a b c x y z hs ha hb hc => tts_three_some ts a b c x y z hs ha hb hc,
   fun ts a b hs h => tts_two_none ts a b hs h,
   fun ts a b c hs h => tts_three_none ts a b c hs h,
   fun ts h2 h3 => tts_other ts h2 h3,
   by decide, by decide, by decide, by decide⟩

/-- Witness for claim C5 at the concrete timestamp 1:05. -/
theorem claim_C5_witness : timestamp_to_seconds lit105 = 1 * 60 + 5 :=
  claim_C5.1 lit105 ['1'] ['0', '5'] 1 5 (by decide) (by decide) (by decide)

/-- Claim C10: `timestamp_to_seconds` performs no range or sign validation on
components: every 2- or 3-part input whose components parse as integers yields
the raw linear combination, so -1:30 yields the negative value -30 and 0:99
yields 99, beyond the 59-second bound of a canonical mm:ss reading. -/
theorem claim_C10 :
    (∀ (ts a b : List Char) (x y : Int), pySplit ':' ts = [a, b] →
        pyInt a = some x → pyInt b = some y →
        timestamp_to_seconds ts = x * 60 + y)
    ∧ (∀ (ts a b c : List Char) (x y z : Int), pySplit ':' ts = [a, b, c] →
        pyInt a = some x → pyInt b = some y → pyInt c = some z →
        timestamp_to_seconds ts = x * 3600 + y * 60 + z)
    ∧ timestamp_to_seconds litNeg130 = -30
    ∧ timestamp_to_seconds litNeg130 < 0
    ∧ timestamp_to_seconds lit099 = 99
    ∧ 59 < timestamp_to_seconds lit099 :=
  ⟨fun ts a b x y hs ha hb => tts_two_some ts a b x y hs ha hb,
   fun ts a b c x y z hs ha hb hc => tts_three_some ts a b c x y z hs ha hb hc,
   by decide, by decide, by decide, by decide⟩

/-- Witness for claim C10 at the concrete timestamp -1:30. -/
theorem claim_C10_witness : timestamp_to_seconds litNeg130 = -1 * 60 + 30 :=
  claim_C10.1 litNeg130 ['-', '1'] ['3', '0'] (-1) 30 (by decide) (by decide) (by decide)

/-- A character produced by the decimal formatter: a digit that is not
whitespace, a sign, or a colon. -/
abbrev goodDigit (c : Char) : Prop :=
  c.isDigit = true ∧ isPyWs c = false ∧ c ≠ '+' ∧ c ≠ '-' ∧ c ≠ ':'

/-- Every digit character emitted by `toDigitChar` is good. -/
theorem toDigitChar_good : ∀ n : Nat, goodDigit (toDigitChar n) := by
  intro n
  rcases n with _ | _ | _ | _ | _ | _ | _ | _ | _ | n
  · decide
  · decide
  · decide
  · decide
  · decide
  · decide
  · decide
  · decide
  · decide
  · exact (show goodDigit (toDigitChar 9) by decide)

/-- The code point of `toDigitChar n` for a digit `n`. -/
theorem toDigitChar_toNat : ∀ n : Nat, n < 10 → (toDigitChar n).toNat = 48 + n := by
  intro n hn
  interval_cases n <;> decide

/-- Appending one digit multiplies the decimal value by ten and adds it. -/
theorem decValue_append_digit (A : List Char) (d : Char) :
    decValue (A ++ [d]) = 10 * decValue A + (d.toNat - 48) := by
  unfold decValue
  rw [List.foldl_append]
  rfl

/-- With enough fuel (`n < 10 ^ fuel`), the decimal formatter emits a
nonempty string of good digit characters whose decimal value is `n`. -/
theorem natToDecFuel_correct : ∀ (fuel n : Nat), 0 < fuel → n < 10 ^ fuel →
    (∀ c ∈ natToDecFuel fuel n, goodDigit c)
      ∧ decValue (natToDecFuel fuel n) = n
      ∧ natToDecFuel fuel n ≠ [] := by
  intro fuel
  induction fuel with
  | zero => intro n h0 _; exact absurd h0 (by omega)
  | succ fuel ih =>
      intro n _ hlt
      have hform0 : natToDecFuel (fuel + 1) n
          = if n < 10 then [toDigitChar n]
            else natToDecFuel fuel (n / 10) ++ [toDigitChar (n % 10)] := rfl
      by_cases h10 : n < 10
      · have hform : natToDecFuel (fuel + 1) n = [toDigitChar n] := by
          rw [hform0, if_pos h10]
        refine ⟨?_, ?_, ?_⟩
        · intro c hc
          rw [hform] at hc
          rcases List.mem_singleton.mp hc with rfl
          exact toDigitChar_good n
        · rw [hform]
          unfold decValue
          simp only [List.foldl_cons, List.foldl_nil, Nat.mul_zero, Nat.zero_add]
          rw [toDigitChar_toNat n h10]
          omega
        · rw [hform]
          exact List.cons_ne_nil _ _
      · have hfuel : 0 < fuel := by
          rcases Nat.eq_zero_or_pos fuel with hf | hf
          · subst hf
            have h1 : (10 : Nat) ^ (0 + 1) = 10 := by norm_num
            rw [h1] at hlt
            omega
          · exact hf
        have hdiv : n / 10 < 10 ^ fuel := by
          rw [Nat.div_lt_iff_lt_mul (by norm_num : 0 < 10)]
          calc n < 10 ^ (fuel + 1) := hlt
            _ = 10 ^ fuel * 10 := by rw [pow_succ]
        have hform : natToDecFuel (fuel + 1) n
            = natToDecFuel fuel (n / 10) ++ [toDigitChar (n % 10)] := by
          rw [hform0, if_neg h10]
        obtain ⟨ihg, ihv, ihne⟩ := ih (n / 10) hfuel hdiv
        refine ⟨?_, ?_, ?_⟩
        · intro c hc
          rw [hform] at hc
          rcases List.mem_append.mp hc with hc | hc
          · exact ihg c hc
          · rcases List.mem_singleton.mp hc with rfl
            exact toDigitChar_good _
        · rw [hform, decValue_append_digit, ihv,
            toDigitChar_toNat (n % 10) (Nat.mod_lt _ (by norm_num))]
          omega
        · rw [hform]
          simp
        -- the flushed append is nonempty

/-- The decimal formatter is correct: good digits, value `n`, nonempty. -/
theorem natToDec_correct (n : Nat) :
    (∀ c ∈ natToDec n, goodDigit c) ∧ decValue (natToDec n) = n ∧ natToDec n ≠ [] := by
  unfold natToDec
  refine natToDecFuel_correct (n + 1) n (Nat.succ_pos n) ?_
  calc n < 10 ^ n := Nat.lt_pow_self (by norm_num) n
    _ ≤ 10 ^ (n + 1) := Nat.pow_le_pow_right (by norm_num) (Nat.le_succ n)

/-- Python `int` on a nonempty string of good digit characters returns its
decimal value. -/
theorem pyInt_digits (ds : List Char) (hne : ds ≠ []) (hg : ∀ c ∈ ds, goodDigit c) :
    pyInt ds = some ((decValue ds : Nat) : Int) := by
  have hstrip : pyStrip ds = ds :=
    pyStrip_eq_self_of ds (fun c hc => (hg c hc).2.1)
  cases ds with
  | nil => exact absurd rfl hne
  | cons c r =>
      have hgc := hg c (List.mem_cons_self _ _)
      unfold pyInt
      rw [hstrip]
      show (if c = '+' then digitsToInt 1 r
        else if c = '-' then digitsToInt (-1) r
        else digitsToInt 1 (c :: r)) = some ((decValue (c :: r) : Nat) : Int)
      rw [if_neg hgc.2.2.1, if_neg hgc.2.2.2.1]
      have hall : (c :: r).all Char.isDigit = true :=
        List.all_eq_true.mpr (fun x hx => (hg x hx).1)
      have hcond : (!(c :: r).isEmpty && (c :: r).all Char.isDigit) = true := by
        rw [hall]
        simp
      unfold digitsToInt
      rw [if_pos hcond, one_mul]
      rfl

/-- A leading zero does not change the decimal value. -/
theorem decValue_cons_zero (ds : List Char) : decValue ('0' :: ds) = decValue ds := by
  unfold decValue
  rw [List.foldl_cons]
  have h : 10 * 0 + ('0'.toNat - 48) = 0 := by decide
  rw [h]

/-- Splitting a separator-free string returns it whole. -/
theorem pySplit_no_sep : ∀ B : List Char, (∀ c ∈ B, c ≠ ':') → pySplit ':' B = [B] := by
  intro B
  induction B with
  | nil => intro _; rfl
  | cons c r ih =>
      intro h
      have hc : c ≠ ':' := h c (List.mem_cons_self _ _)
      have hr := ih (fun x hx => h x (List.mem_cons_of_mem _ hx))
      simp only [pySplit]
      rw [if_neg hc, hr]

/-- Splitting around one separator splits off the separator-free head. -/
theorem pySplit_sep_append : ∀ A : List Char, (∀ c ∈ A, c ≠ ':') →
    ∀ B : List Char, pySplit ':' (A ++ ':' :: B) = A :: pySplit ':' B := by
  intro A
  induction A with
  | nil =>
      intro _ B
      simp [pySplit]
  | cons a A' ih =>
      intro h B
      have ha : a ≠ ':' := h a (List.mem_cons_self _ _)
      have hA' := ih (fun x hx => h x (List.mem_cons_of_mem _ hx)) B
      simp only [List.cons_append, pySplit, List.append_eq]
      rw [if_neg ha, hA']

/-- Every character of `pad2` is a good digit character. -/
theorem pad2_good (b : Nat) : ∀ c ∈ pad2 b, goodDigit c := by
  intro c hc
  unfold pad2 at hc
  by_cases hb : b < 10
  · rw [if_pos hb] at hc
    rcases List.mem_cons.mp hc with rfl | hc
    · decide
    · exact (natToDec_correct b).1 c hc
  · rw [if_neg hb] at hc
    exact (natToDec_correct b).1 c hc

/-- Python `int` recovers the value of a zero-padded two-digit field. -/
theorem pyInt_pad2 (b : Nat) : pyInt (pad2 b) = some ((b : Nat) : Int) := by
  obtain ⟨hg, hv, hne⟩ := natToDec_correct b
  unfold pad2
  by_cases hb : b < 10
  · rw [if_pos hb]
    have hg0 : ∀ c ∈ '0' :: natToDec b, goodDigit c := by
      intro c hc
      rcases List.mem_cons.mp hc with rfl | hc
      · decide
      · exact hg c hc
    rw [pyInt_digits ('0' :: natToDec b) (List.cons_ne_nil _ _) hg0,
      decValue_cons_zero, hv]
  · rw [if_neg hb]
    rw [pyInt_digits (natToDec b) hne hg, hv]

/-- Python `int` recovers the value of the formatted minutes field. -/
theorem pyInt_natToDec (a : Nat) : pyInt (natToDec a) = some ((a : Nat) : Int) := by
  obtain ⟨hg, hv, hne⟩ := natToDec_correct a
  rw [pyInt_digits (natToDec a) hne hg, hv]

/-- Claim C6: for every `N` in `[0, 3600)`, encoding `N` to mm:ss with the
transcript writer (`minutes = N / 60`, `seconds = N % 60` zero-padded to two
digits) and decoding with `timestamp_to_seconds` yields `N` back. -/
theorem claim_C6 : ∀ N : Nat, N < 3600 →
    timestamp_to_seconds (format_mm_ss N) = (N : Int) := by
  intro N _
  have hsplit : pySplit ':' (format_mm_ss N) = [natToDec (N / 60), pad2 (N % 60)] := by
    unfold format_mm_ss
    rw [pySplit_sep_append (natToDec (N / 60))
        (fun c hc => ((natToDec_correct (N / 60)).1 c hc).2.2.2.2) (pad2 (N % 60)),
      pySplit_no_sep (pad2 (N % 60)) (fun c hc => (pad2_good (N % 60) c hc).2.2.2.2)]
  rw [tts_two_some (format_mm_ss N) (natToDec (N / 60)) (pad2 (N % 60))
      (N / 60) (N % 60) hsplit (pyInt_natToDec (N / 60)) (pyInt_pad2 (N % 60))]
  omega

/-- Witness for claim C6 at `N = 65`. -/
theorem claim_C6_witness : timestamp_to_seconds (format_mm_ss 65) = (65 : Int) :=
  claim_C6 65 (by decide)

/-- A found character is a member. -/
theorem pyFind_mem : ∀ (l : List Char) (i : Nat), pyFind ']' l = some i → ']' ∈ l := by
  intro l
  induction l with
  | nil => intro i h; exact Option.noConfusion h
  | cons a t ih =>
      intro i h
      by_cases ha : a = ']'
      · subst ha
        exact List.mem_cons_self _ _
      · unfold pyFind at h
        rw [if_neg ha] at h
        rcases Option.map_eq_some'.mp h with ⟨j, hj, _⟩
        exact List.mem_cons_of_mem _ (ih j hj)

/-- `pyFind` locates the first occurrence after a clean head. -/
theorem pyFind_append : ∀ ts : List Char, ']' ∉ ts →
    ∀ rest : List Char, pyFind ']' (ts ++ ']' :: rest) = some ts.length := by
  intro ts
  induction ts with
  | nil =>
      intro _ rest
      simp [pyFind]
  | cons a ts' ih =>
      intro h rest
      have ha : a ≠ ']' := fun heq => h (heq ▸ List.mem_cons_self a ts')
      have h' : ']' ∉ ts' := fun hm => h (List.mem_cons_of_mem _ hm)
      simp only [List.cons_append, pyFind, List.append_eq]
      rw [if_neg ha, ih h' rest]
      rfl

/-- Dropping past the separator leaves the tail. -/
theorem drop_after_sep : ∀ ts rest : List Char,
    (ts ++ ']' :: rest).drop (ts.length + 1) = rest := by
  intro ts rest
  induction ts with
  | nil => rfl
  | cons a ts' ih =>
      simp only [List.cons_append, List.length_cons, List.drop_succ_cons]
      exact ih

/-- Claim C7: the Line Parser is total (never raises); on a stripped line of
the form `[` timestamp `]` text — with the first right bracket closing the
timestamp — it returns the characters between the brackets as the timestamp
and the stripped remainder as the text; on every other line it returns an
empty timestamp and the stripped line as the text. -/
theorem claim_C7 :
    (∀ line ts rest : List Char, pyStrip line = '[' :: ts ++ ']' :: rest → ']' ∉ ts →
        parse_line line = (ts, pyStrip rest, pyStrip line))
    ∧ (∀ line : List Char, (pyStrip line).head? ≠ some '[' ∨ ']' ∉ pyStrip line →
        parse_line line = ([], pyStrip line, pyStrip line)) := by
  constructor
  · intro line ts rest h hts
    have hfind : pyFind ']' (pyStrip line) = some (ts.length + 1) := by
      rw [h]
      show (if '[' = ']' then some 0
        else (pyFind ']' (ts ++ ']' :: rest)).map (· + 1)) = some (ts.length + 1)
      rw [if_neg (by decide), pyFind_append ts hts rest]
      rfl
    have hhead : (pyStrip line).head? = some '[' := by
      rw [h]
      rfl
    simp only [parse_line, hfind, hhead, eq_self_iff_true, if_true]
    rw [h]
    have h1 : (('[' :: ts ++ ']' :: rest).drop 1).take (ts.length + 1 - 1) = ts := by
      simp only [List.cons_append, List.drop_succ_cons, List.drop_zero, Nat.add_sub_cancel]
      exact List.take_left ts (']' :: rest)
    have h2 : ('[' :: ts ++ ']' :: rest).drop (ts.length + 1 + 1) = rest := by
      simp only [List.cons_append, List.drop_succ_cons]
      exact drop_after_sep ts rest
    rw [h1, h2]
  · intro line h
    simp only [parse_line]
    cases hf : pyFind ']' (pyStrip line) with
    | none => rfl
    | some i =>
        have hmem : ']' ∈ pyStrip line := pyFind_mem _ i hf
        have hhead : ¬ (pyStrip line).head? = some '[' := by
          rcases h with h | h
          · exact h
          · exact absurd hmem h
        simp [hhead]

/-- Literal "[1:05] hello". -/
def litBrLine : List Char := "[1:05] hello".data

/-- Literal " hello". -/
def litHello : List Char := " hello".data

/-- Witness for claim C7 on the concrete line "[1:05] hello". -/
theorem claim_C7_witness :
    parse_line litBrLine = (lit105, pyStrip litHello, pyStrip litBrLine) :=
  claim_C7.1 litBrLine lit105 litHello (by decide) (by decide)

/-- The hit-collection loop is the filter-map of the trigger test over the
enumerated lines, each trigger at index `i` contributing the candidate window
`[i - R, min (n-1) (i + R)]` with trigger index `i`. -/
theorem find_hits_go_eq (n : Nat) (kws : List (List Char)) (R : Nat) :
    ∀ (l : List (List Char × List Char × List Char)) (i0 : Nat),
      find_hits_go n kws R i0 l
        = (List.enumFrom i0 l).filterMap (fun p =>
            if line_has_keyword p.2.2.1 kws then
              some (p.1 - R, min (n - 1) (p.1 + R), p.1)
            else none) := by
  intro l
  induction l with
  | nil => intro i0; rfl
  | cons pl rest ih =>
      intro i0
      show (if line_has_keyword pl.2.1 kws then [(i0 - R, min (n - 1) (i0 + R), i0)] else [])
          ++ find_hits_go n kws R (i0 + 1) rest = _
      rw [ih (i0 + 1)]
      have henum : List.enumFrom i0 (pl :: rest) = (i0, pl) :: List.enumFrom (i0 + 1) rest := rfl
      rw [henum, List.filterMap_cons]
      by_cases hk : line_has_keyword pl.2.1 kws = true
      · rw [if_pos hk]
        simp [hk]
      · rw [if_neg hk]
        simp [hk]

/-- Membership in the hit list: exactly the triggering enumerated lines,
with the candidate window of claim C2. -/
theorem find_hits_mem (parsed : List (List Char × List Char × List Char))
    (kws : List (List Char)) (R : Nat) (h : Nat × Nat × Nat) :
    h ∈ find_hits parsed kws R ↔
      ∃ p ∈ parsed.enum, line_has_keyword p.2.2.1 kws = true
        ∧ h = (p.1 - R, min (parsed.length - 1) (p.1 + R), p.1) := by
  unfold find_hits
  rw [find_hits_go_eq parsed.length kws R parsed 0, List.mem_filterMap]
  constructor
  · rintro ⟨p, hp, hf⟩
    by_cases hk : line_has_keyword p.2.2.1 kws = true
    · rw [if_pos hk] at hf
      injection hf with hf
      exact ⟨p, hp, hk, hf.symm⟩
    · rw [if_neg hk] at hf
      exact Option.noConfusion hf
  · rintro ⟨p, hp, hk, rfl⟩
    exact ⟨p, hp, by rw [if_pos hk]⟩

/-- The imperative merge loop (fold plus final flush) agrees with the spec's
state machine, relative to any accumulator and open window. -/
theorem merge_go_eq : ∀ (t : List (Nat × Nat × Nat)) (acc : List (Nat × Nat × List Nat))
    (cur : Option (Nat × Nat × List Nat)),
    merge_finish (t.foldl mergeStep (acc, cur)) = acc ++ windows_spec_go cur t := by
  intro t
  induction t with
  | nil =>
      intro acc cur
      cases cur with
      | none => simp [merge_finish, windows_spec_go]
      | some w => simp [merge_finish, windows_spec_go]
  | cons hd t ih =>
      intro acc cur
      obtain ⟨s, e, i⟩ := hd
      cases cur with
      | none =>
          rw [List.foldl_cons]
          show merge_finish (t.foldl mergeStep (acc, some (s, e, [i])))
            = acc ++ windows_spec_go none ((s, e, i) :: t)
          rw [ih acc (some (s, e, [i]))]
          rfl
      | some w =>
          obtain ⟨cs, ce, idxs⟩ := w
          rw [List.foldl_cons]
          by_cases hle : s ≤ ce + 1
          · have hstep : mergeStep (acc, some (cs, ce, idxs)) (s, e, i)
                = (acc, some (cs, max ce e, idxs ++ [i])) := by
              simp only [mergeStep]
              rw [if_pos hle]
            have hgo : windows_spec_go (some (cs, ce, idxs)) ((s, e, i) :: t)
                = windows_spec_go (some (cs, max ce e, idxs ++ [i])) t := by
              simp only [windows_spec_go]
              rw [if_pos hle]
            rw [hstep, ih, hgo]
          · have hstep : mergeStep (acc, some (cs, ce, idxs)) (s, e, i)
                = (acc ++ [(cs, ce, idxs)], some (s, e, [i])) := by
              simp only [mergeStep]
              rw [if_neg hle]
            have hgo : windows_spec_go (some (cs, ce, idxs)) ((s, e, i) :: t)
                = (cs, ce, idxs) :: windows_spec_go (some (s, e, [i])) t := by
              simp only [windows_spec_go]
              rw [if_neg hle]
            rw [hstep, ih, hgo, List.append_assoc]
            rfl

/-- The merge loop of the code equals the spec-modelled state machine. -/
theorem merge_hits_eq_spec (hits : List (Nat × Nat × Nat)) :
    merge_hits hits = windows_spec hits := by
  unfold merge_hits windows_spec
  have h := merge_go_eq hits [] none
  simpa using h

/-- Invariant of the state machine with an open window: bounded windows, a
gap of at least two between consecutive ones, and the head keeps the current
start. -/
theorem windows_go_inv (n : Nat) :
    ∀ (t : List (Nat × Nat × Nat)) (cs ce : Nat) (idxs : List Nat),
      cs ≤ ce → ce < n → (∀ h ∈ t, h.1 ≤ h.2.1 ∧ h.2.1 < n) →
      (∀ w ∈ windows_spec_go (some (cs, ce, idxs)) t, w.1 ≤ w.2.1 ∧ w.2.1 < n)
        ∧ List.Chain' (fun w w' => w.2.1 + 2 ≤ w'.1) (windows_spec_go (some (cs, ce, idxs)) t)
        ∧ ∃ e' idxs' rest, windows_spec_go (some (cs, ce, idxs)) t = (cs, e', idxs') :: rest := by
  intro t
  induction t with
  | nil =>
      intro cs ce idxs h1 h2 _
      refine ⟨?_, List.chain'_singleton _, ce, idxs, [], rfl⟩
      intro w hw
      rcases List.mem_singleton.mp hw with rfl
      exact ⟨h1, h2⟩
  | cons hd t ih =>
      intro cs ce idxs h1 h2 hall
      obtain ⟨s, e, i⟩ := hd
      have hse := hall (s, e, i) (List.mem_cons_self _ _)
      have hall' : ∀ h ∈ t, h.1 ≤ h.2.1 ∧ h.2.1 < n :=
        fun h hm => hall h (List.mem_cons_of_mem _ hm)
      by_cases hle : s ≤ ce + 1
      · have hgo : windows_spec_go (some (cs, ce, idxs)) ((s, e, i) :: t)
            = windows_spec_go (some (cs, max ce e, idxs ++ [i])) t := by
          simp only [windows_spec_go]
          rw [if_pos hle]
        rw [hgo]
        exact ih cs (max ce e) (idxs ++ [i]) (le_trans h1 (le_max_left _ _))
          (max_lt h2 hse.2) hall'
      · have hgo : windows_spec_go (some (cs, ce, idxs)) ((s, e, i) :: t)
            = (cs, ce, idxs) :: windows_spec_go (some (s, e, [i])) t := by
          simp only [windows_spec_go]
          rw [if_neg hle]
        rw [hgo]
        obtain ⟨ihB, ihC, e', idxs', rest, hEq⟩ := ih s e [i] hse.1 hse.2 hall'
        refine ⟨?_, ?_, ce, idxs, _, rfl⟩
        · intro w hw
          rcases List.mem_cons.mp hw with rfl | hw
          · exact ⟨h1, h2⟩
          · exact ihB w hw
        · rw [hEq]
          rw [hEq] at ihC
          refine List.chain'_cons.mpr ⟨?_, ihC⟩
          show ce + 2 ≤ s
          omega

/-- The spec state machine started with no open window keeps all invariants
whenever the incoming hits are bounded. -/
theorem windows_spec_inv (n : Nat) (hits : List (Nat × Nat × Nat))
    (hb : ∀ h ∈ hits, h.1 ≤ h.2.1 ∧ h.2.1 < n) :
    (∀ w ∈ windows_spec hits, w.1 ≤ w.2.1 ∧ w.2.1 < n)
      ∧ List.Chain' (fun w w' => w.2.1 + 2 ≤ w'.1) (windows_spec hits) := by
  cases hits with
  | nil => exact ⟨fun w hw => absurd hw (List.not_mem_nil w), List.chain'_nil⟩
  | cons hd t =>
      obtain ⟨s, e, i⟩ := hd
      have hse := hb (s, e, i) (List.mem_cons_self _ _)
      have hall' : ∀ h ∈ t, h.1 ≤ h.2.1 ∧ h.2.1 < n :=
        fun h hm => hb h (List.mem_cons_of_mem _ hm)
      have hgo : windows_spec ((s, e, i) :: t) = windows_spec_go (some (s, e, [i])) t := rfl
      rw [hgo]
      obtain ⟨iB, iC, _⟩ := windows_go_inv n t s e [i] hse.1 hse.2 hall'
      exact ⟨iB, iC⟩

/-- Bounds on enumerated indices. -/
theorem mem_enumFrom_bounds {α : Type} :
    ∀ (l : List α) (i0 : Nat) (p : Nat × α), p ∈ List.enumFrom i0 l →
      i0 ≤ p.1 ∧ p.1 < i0 + l.length := by
  intro l
  induction l with
  | nil => intro i0 p hp; exact absurd hp (List.not_mem_nil p)
  | cons a t ih =>
      intro i0 p hp
      rcases List.mem_cons.mp hp with rfl | hp
      · simp
      · have := ih (i0 + 1) p hp
        simp only [List.length_cons]
        omega

/-- Every collected hit is a well-formed candidate window. -/
theorem find_hits_bounds (parsed : List (List Char × List Char × List Char))
    (kws : List (List Char)) (R : Nat) :
    ∀ h ∈ find_hits parsed kws R, h.1 ≤ h.2.1 ∧ h.2.1 < parsed.length := by
  intro h hm
  rcases (find_hits_mem parsed kws R h).mp hm with ⟨p, hp, _, rfl⟩
  have hb := mem_enumFrom_bounds parsed 0 p hp
  have hi : p.1 < parsed.length := by omega
  refine ⟨le_min (by omega) (by omega), ?_⟩
  exact lt_of_le_of_lt (min_le_left _ _) (by omega)

/-- A two-line gap chain, together with start-end bounds, gives the pairwise
gap property. -/
theorem chain_gap_pairwise :
    ∀ l : List (Nat × Nat × List Nat), (∀ w ∈ l, w.1 ≤ w.2.1) →
      List.Chain' (fun w w' => w.2.1 + 2 ≤ w'.1) l →
      List.Pairwise (fun w w' => w.2.1 + 2 ≤ w'.1) l := by
  intro l
  induction l with
  | nil => intro _ _; exact List.Pairwise.nil
  | cons a l ih =>
      intro hb hc
      cases l with
      | nil => exact List.pairwise_singleton _ _
      | cons b l' =>
          obtain ⟨hab, hc'⟩ := List.chain'_cons.mp hc
          have hb' : ∀ w ∈ b :: l', w.1 ≤ w.2.1 :=
            fun w hw => hb w (List.mem_cons_of_mem _ hw)
          have hp' := ih hb' hc'
          refine List.pairwise_cons.mpr ⟨?_, hp'⟩
          intro w hw
          rcases List.mem_cons.mp hw with rfl | hw
          · exact hab
          · have hbw : b.2.1 + 2 ≤ w.1 := (List.pairwise_cons.mp hp').1 w hw
            have hbB : b.1 ≤ b.2.1 := hb' b (List.mem_cons_self _ _)
            omega

/-- The whole window pipeline produces bounded windows in a gap chain. -/
theorem analyze_windows_props (raw_lines keywords : List (List Char)) (R : Nat) :
    (∀ w ∈ analyze_windows raw_lines keywords R, w.1 ≤ w.2.1 ∧ w.2.1 < raw_lines.length)
      ∧ List.Chain' (fun w w' => w.2.1 + 2 ≤ w'.1) (analyze_windows raw_lines keywords R) := by
  unfold analyze_windows
  rw [merge_hits_eq_spec]
  refine windows_spec_inv raw_lines.length _ ?_
  intro h hm
  have hm' : h ∈ find_hits (raw_lines.map parse_line) keywords R :=
    (List.perm_insertionSort _ _).subset hm
  have hb := find_hits_bounds (raw_lines.map parse_line) keywords R h hm'
  rw [List.length_map] at hb
  exact hb

/-- Literal "x", a filler line with no keyword. -/
def litX : List Char := "x".data

/-- A 15-line transcript whose lines 2 and 9 contain the keyword. -/
def exC2lines : List (List Char) :=
  [litX, litX, litKredyt, litX, litX, litX, litX, litX,
   litX, litKredyt, litX, litX, litX, litX, litX]

/-- Claim C2: hits are exactly the triggering lines with candidate window
`[max 0 (i-R), min (len-1, i+R)]` (ℕ subtraction is the clamped max);
the merge loop implements the spec's state machine, which extends the open
window exactly when the candidate start is at most `current_end + 1` (max of
ends, trigger appended) and otherwise emits it and opens a new one; and on a
15-line transcript with hits at lines 2 and 9 and radius 5 the candidates
`[0,7]` and `[4,14]` merge into the single window `[0,14]`. -/
theorem claim_C2 :
    (∀ (parsed : List (List Char × List Char × List Char)) (keywords : List (List Char))
        (R : Nat) (h : Nat × Nat × Nat),
        h ∈ find_hits parsed keywords R ↔
          ∃ p ∈ parsed.enum, line_has_keyword p.2.2.1 keywords = true
            ∧ h = (p.1 - R, min (parsed.length - 1) (p.1 + R), p.1))
    ∧ (∀ hits : List (Nat × Nat × Nat), merge_hits hits = windows_spec hits)
    ∧ analyze_windows exC2lines [litKredyt] 5 = [(0, 14, [2, 9])] :=
  ⟨fun parsed keywords R h => find_hits_mem parsed keywords R h,
   fun hits => merge_hits_eq_spec hits,
   by decide⟩

/-- Witness for claim C2: its concrete merged-window instance. -/
theorem claim_C2_witness : analyze_windows exC2lines [litKredyt] 5 = [(0, 14, [2, 9])] :=
  claim_C2.2.2

/-- Claim C3: for every transcript, keyword list and radius, every merged
window `(s, e, triggers)` satisfies `0 ≤ s ≤ e < number of lines` (the lower
bound is inherent to ℕ), the windows are ordered by start index, and
consecutive windows neither overlap nor touch: each later window starts at
least two lines after the previous window's end. -/
theorem claim_C3 (raw_lines keywords : List (List Char)) (R : Nat) :
    (∀ w ∈ analyze_windows raw_lines keywords R, w.1 ≤ w.2.1 ∧ w.2.1 < raw_lines.length)
      ∧ List.Pairwise (fun w w' => w.1 ≤ w'.1) (analyze_windows raw_lines keywords R)
      ∧ List.Pairwise (fun w w' => w.2.1 + 2 ≤ w'.1) (analyze_windows raw_lines keywords R) := by
  obtain ⟨hB, hC⟩ := analyze_windows_props raw_lines keywords R
  have hgap := chain_gap_pairwise _ (fun w hw => (hB w hw).1) hC
  refine ⟨hB, ?_, hgap⟩
  refine List.Pairwise.imp_of_mem ?_ hgap
  intro a b ha _ hr
  have h1 := (hB a ha).1
  omega

/-- Witness for claim C3 on the concrete 15-line transcript. -/
theorem claim_C3_witness :
    ((0, 14, ([2, 9] : List Nat)).1 ≤ (0, 14, ([2, 9] : List Nat)).2.1
        ∧ (0, 14, ([2, 9] : List Nat)).2.1 < exC2lines.length)
      ∧ List.Pairwise (fun w w' => w.1 ≤ w'.1) (analyze_windows exC2lines [litKredyt] 5) := by
  have h := claim_C3 exC2lines [litKredyt] 5
  exact ⟨h.1 (0, 14, [2, 9]) (by decide), h.2.1⟩

/-- The payload of an enumerated entry is a member of the list. -/
theorem mem_enumFrom_snd {α : Type} :
    ∀ (l : List α) (i0 : Nat) (p : Nat × α), p ∈ List.enumFrom i0 l → p.2 ∈ l := by
  intro l
  induction l with
  | nil => intro i0 p hp; exact absurd hp (List.not_mem_nil p)
  | cons a t ih =>
      intro i0 p hp
      rcases List.mem_cons.mp hp with rfl | hp
      · exact List.mem_cons_self _ _
      · exact List.mem_cons_of_mem _ (ih (i0 + 1) p hp)

/-- A transcript in which no parsed line contains any keyword occurrence has
no hits. -/
theorem find_hits_nil_of_no_kw (parsed : List (List Char × List Char × List Char))
    (kws : List (List Char)) (R : Nat)
    (h : ∀ pl ∈ parsed, ∀ kw ∈ kws, count_keyword_occurrences_in_line pl.2.1 kw = 0) :
    find_hits parsed kws R = [] := by
  rw [List.eq_nil_iff_forall_not_mem]
  intro x hx
  rcases (find_hits_mem parsed kws R x).mp hx with ⟨p, hp, hk, _⟩
  have hmem : p.2 ∈ parsed := mem_enumFrom_snd parsed 0 p hp
  rcases List.any_eq_true.mp hk with ⟨kw, hkw, hc⟩
  have hpos : 0 < count_keyword_occurrences_in_line p.2.2.1 kw := of_decide_eq_true hc
  rw [h p.2 hmem kw hkw] at hpos
  exact Nat.lt_irrefl 0 hpos

/-- Claim C8: a readable transcript in which no line contains any keyword
occurrence contributes no excerpt, increments the no-keywords counter (not
the missing list), and the batch fold continues over the remaining videos. -/
theorem claim_C8 (keywords : List (List Char)) (weights : List (List Char × Rat))
    (R : Nat) (st : BatchState) (v : VideoEntry) (L : List (List Char))
    (rest : List VideoEntry) (hfile : v.file = some (some L))
    (hno : ∀ line ∈ L, ∀ kw ∈ keywords,
      count_keyword_occurrences_in_line (parse_line line).2.1 kw = 0) :
    analyze_step keywords weights R st v = { st with noKeywords := st.noKeywords + 1 }
      ∧ List.foldl (analyze_step keywords weights R) st (v :: rest)
          = List.foldl (analyze_step keywords weights R)
              { st with noKeywords := st.noKeywords + 1 } rest := by
  have hhits : find_hits (L.map parse_line) keywords R = [] := by
    apply find_hits_nil_of_no_kw
    intro pl hpl kw hkw
    rcases List.mem_map.mp hpl with ⟨line, hline, rfl⟩
    exact hno line hline kw hkw
  have hstep : analyze_step keywords weights R st v
      = { st with noKeywords := st.noKeywords + 1 } := by
    simp only [analyze_step, hfile]
    rw [if_pos hhits]
  exact ⟨hstep, by rw [List.foldl_cons, hstep]⟩

/-- A no-keyword one-line transcript. -/
def exVideoNoKw : VideoEntry := ⟨litX, litX, litX, litX, some (some [litX])⟩

/-- Witness for claim C8 on a one-line transcript without keywords. -/
theorem claim_C8_witness :
    analyze_step [litKredyt] [] 5 ⟨[], [], 0, 0⟩ exVideoNoKw
        = { (⟨[], [], 0, 0⟩ : BatchState) with
              noKeywords := (⟨[], [], 0, 0⟩ : BatchState).noKeywords + 1 }
      ∧ List.foldl (analyze_step [litKredyt] [] 5) (⟨[], [], 0, 0⟩ : BatchState) [exVideoNoKw]
        = List.foldl (analyze_step [litKredyt] [] 5)
            { (⟨[], [], 0, 0⟩ : BatchState) with
                noKeywords := (⟨[], [], 0, 0⟩ : BatchState).noKeywords + 1 } [] :=
  claim_C8 [litKredyt] [] 5 ⟨[], [], 0, 0⟩ exVideoNoKw [litX] [] rfl (by decide)

/-- Claim C9: the two failure paths append differently shaped entries to the
missing list — a nonexistent file appends a record with videoId,
channelHandle and publishedAt, a read error appends the bare video id — the
two shapes are never equal, and the missing-transcripts CSV writer succeeds
only when every entry has the record shape (a bare entry makes it raise). -/
theorem claim_C9 :
    (∀ (keywords : List (List Char)) (weights : List (List Char × Rat)) (R : Nat)
        (st : BatchState) (v : VideoEntry), v.file = none →
        analyze_step keywords weights R st v
          = { st with missing := st.missing
              ++ [MissingEntry.record v.videoId v.channelHandle v.publishedAt] })
    ∧ (∀ (keywords : List (List Char)) (weights : List (List Char × Rat)) (R : Nat)
        (st : BatchState) (v : VideoEntry), v.file = some none →
        analyze_step keywords weights R st v
          = { st with missing := st.missing ++ [MissingEntry.bare v.videoId] })
    ∧ (∀ a b c d : List Char, MissingEntry.record a b c ≠ MissingEntry.bare d)
    ∧ (∀ entries : List MissingEntry, (∃ e ∈ entries, missing_entry_is_record e = false) →
        write_missing_rows entries = none)
    ∧ (∀ entries : List MissingEntry, (∀ e ∈ entries, missing_entry_is_record e = true) →
        ∃ rows, write_missing_rows entries = some rows) := by
  refine ⟨?_, ?_, ?_, ?_, ?_⟩
  · intro kws wts R st v hf
    simp only [analyze_step, hf]
  · intro kws wts R st v hf
    simp only [analyze_step, hf]
  · intro a b c d h
    exact MissingEntry.noConfusion h
  · intro entries
    induction entries with
    | nil =>
        intro h
        rcases h with ⟨e, he, _⟩
        exact absurd he (List.not_mem_nil e)
    | cons e rest ih =>
        intro h
        rcases h with ⟨e', he', hrec⟩
        cases e with
        | bare id => rfl
        | record a b c =>
            rcases List.mem_cons.mp he' with rfl | he'
            · simp [missing_entry_is_record] at hrec
            · have hrest : write_missing_rows rest = none := ih ⟨e', he', hrec⟩
              show (write_missing_rows rest).map _ = none
              rw [hrest]
              rfl
  · intro entries
    induction entries with
    | nil => intro _; exact ⟨[], rfl⟩
    | cons e rest ih =>
        intro h
        have he := h e (List.mem_cons_self _ _)
        cases e with
        | bare id => simp [missing_entry_is_record] at he
        | record a b c =>
            obtain ⟨rows, hr⟩ := ih (fun x hx => h x (List.mem_cons_of_mem _ hx))
            refine ⟨(a, b, c) :: rows, ?_⟩
            show (write_missing_rows rest).map _ = _
            rw [hr]
            rfl

/-- A catalogued video whose transcription file does not exist. -/
def exVideoMissing : VideoEntry := ⟨litX, litX, litX, litX, none⟩

/-- Witness for claim C9 on a video with no transcription file. -/
theorem claim_C9_witness :
    analyze_step [litKredyt] [] 5 ⟨[], [], 0, 0⟩ exVideoMissing
      = { (⟨[], [], 0, 0⟩ : BatchState) with
            missing := (⟨[], [], 0, 0⟩ : BatchState).missing
              ++ [MissingEntry.record exVideoMissing.videoId exVideoMissing.channelHandle
                    exVideoMissing.publishedAt] } :=
  claim_C9.1 [litKredyt] [] 5 ⟨[], [], 0, 0⟩ exVideoMissing rfl

/-- Looking up a key under a different head skips it. -/
theorem dictGet_cons_ne (d : List (List Char × Nat)) (k kw : List Char) (v : Nat)
    (h : k ≠ kw) : dictGet ((k, v) :: d) kw = dictGet d kw := by
  unfold dictGet
  rw [List.find?_cons_of_neg _ (by simp [h])]

/-- Looking up the head key returns its value. -/
theorem dictGet_cons_eq (d : List (List Char × Nat)) (k : List Char) (v : Nat) :
    dictGet ((k, v) :: d) k = v := by
  unfold dictGet
  rw [List.find?_cons_of_pos _ (by simp)]

/-- Lookup in a keyed map built from a value function. -/
theorem dictGet_map : ∀ (ks : List (List Char)) (G : List Char → Nat) (kw : List Char),
    kw ∈ ks → dictGet (ks.map fun k => (k, G k)) kw = G kw := by
  intro ks
  induction ks with
  | nil => intro G kw h; exact absurd h (List.not_mem_nil kw)
  | cons k ks' ih =>
      intro G kw hm
      rw [List.map_cons]
      by_cases hk : k = kw
      · subst hk
        exact dictGet_cons_eq _ k (G k)
      · have hm' : kw ∈ ks' := by
          rcases List.mem_cons.mp hm with h | h
          · exact absurd h.symm hk
          · exact h
        rw [dictGet_cons_ne _ k kw (G k) hk]
        exact ih G kw hm'

/-- Updating a present key in a keyed map rewrites exactly that key's value. -/
theorem dictInsert_map (ks : List (List Char)) (G : List Char → Nat) (kw : List Char)
    (v : Nat) (hm : kw ∈ ks) :
    dictInsert (ks.map fun k => (k, G k)) kw v
      = ks.map fun k => (k, if k = kw then v else G k) := by
  unfold dictInsert
  have hany : (ks.map fun k => (k, G k)).any (fun p => decide (p.1 = kw)) = true := by
    rw [List.any_eq_true]
    exact ⟨(kw, G kw), List.mem_map_of_mem _ hm, by simp⟩
  rw [if_pos hany, List.map_map]
  apply List.map_congr_left
  intro k _
  by_cases h : k = kw
  · subst h
    simp
  · simp [h]

/-- With fresh distinct keys, the dict-initialisation loop appends them. -/
theorem dictInit_go : ∀ (ks : List (List Char)) (d : List (List Char × Nat)),
    ks.Nodup → (∀ k ∈ ks, d.any (fun p => decide (p.1 = k)) = false) →
    ks.foldl (fun d kw => dictInsert d kw 0) d = d ++ ks.map fun k => (k, 0) := by
  intro ks
  induction ks with
  | nil => intro d _ _; simp
  | cons k ks' ih =>
      intro d hnd hnone
      rw [List.foldl_cons]
      have hfalse := hnone k (List.mem_cons_self _ _)
      have hstep : dictInsert d k 0 = d ++ [(k, 0)] := by
        unfold dictInsert
        simp only [hfalse, Bool.false_eq_true, if_false]
      rw [hstep, ih (d ++ [(k, 0)]) (List.nodup_cons.mp hnd).2]
      · simp
      · intro k' hk'
        have h1 := hnone k' (List.mem_cons_of_mem _ hk')
        have hkk' : k ≠ k' := fun heq => (List.nodup_cons.mp hnd).1 (heq ▸ hk')
        rw [List.any_append, h1]
        simp [hkk']

/-- For distinct keywords, dict initialisation is the zero-valued keyed map. -/
theorem dictInit_eq (ks : List (List Char)) (hnd : ks.Nodup) :
    dictInit ks = ks.map fun k => (k, 0) := by
  unfold dictInit
  rw [dictInit_go ks [] hnd (fun k _ => rfl)]
  rfl

/-- One pass of the per-line keyword loop over a keyed count map adds the
line's count to every keyword of the pass (distinct keywords, all present in
the map's key list). -/
theorem inner_fold_eq (cnt : List Char → Nat) (keywords : List (List Char)) :
    ∀ (ks₂ : List (List Char)) (G : List Char → Nat), ks₂.Nodup →
      (∀ k ∈ ks₂, k ∈ keywords) →
      ks₂.foldl (fun c kw => dictInsert c kw (dictGet c kw + cnt kw))
          (keywords.map fun k => (k, G k))
        = keywords.map fun k => (k, if k ∈ ks₂ then G k + cnt k else G k) := by
  intro ks₂
  induction ks₂ with
  | nil =>
      intro G _ _
      simp
  | cons kw₀ ks₂' ih =>
      intro G hnd hsub
      rw [List.foldl_cons]
      have hkw₀ : kw₀ ∈ keywords := hsub kw₀ (List.mem_cons_self _ _)
      rw [dictGet_map keywords G kw₀ hkw₀,
        dictInsert_map keywords G kw₀ (G kw₀ + cnt kw₀) hkw₀]
      have hih := ih (fun k => if k = kw₀ then G kw₀ + cnt kw₀ else G k)
        (List.nodup_cons.mp hnd).2 (fun k hk => hsub k (List.mem_cons_of_mem _ hk))
      rw [hih]
      apply List.map_congr_left
      intro k _
      by_cases h1 : k ∈ ks₂'
      · have h2 : k ≠ kw₀ := fun heq => (List.nodup_cons.mp hnd).1 (heq ▸ h1)
        simp [h1, h2, List.mem_cons]
      · by_cases h2 : k = kw₀
        · subst h2
          simp [h1]
        · simp [h1, h2, List.mem_cons]

/-- For distinct keywords, the per-keyword counts of
`count_keywords_in_extended_lines` are exactly the per-line sums of the
Keyword Matcher's counts. -/
theorem count_keywords_eq (keywords : List (List Char)) (hnd : keywords.Nodup)
    (lines : List (List Char)) :
    count_keywords_in_extended_lines lines keywords
      = keywords.map fun k => (k, totalKwCount lines k) := by
  have main : ∀ (ls : List (List Char)) (G : List Char → Nat),
      ls.foldl (fun counts line => keywords.foldl
          (fun c kw => dictInsert c kw
            (dictGet c kw + count_keyword_occurrences_in_line line kw)) counts)
        (keywords.map fun k => (k, G k))
      = keywords.map fun k => (k, G k + totalKwCount ls k) := by
    intro ls
    induction ls with
    | nil =>
        intro G
        simp [totalKwCount]
    | cons line rest ih =>
        intro G
        rw [List.foldl_cons]
        rw [inner_fold_eq (fun kw => count_keyword_occurrences_in_line line kw)
          keywords keywords G hnd (fun k hk => hk)]
        have hcg : (keywords.map fun k =>
              (k, if k ∈ keywords then G k + count_keyword_occurrences_in_line line k else G k))
            = keywords.map fun k => (k, G k + count_keyword_occurrences_in_line line k) := by
          apply List.map_congr_left
          intro k hk
          simp [hk]
        rw [hcg, ih (fun k => G k + count_keyword_occurrences_in_line line k)]
        apply List.map_congr_left
        intro k _
        have ht : totalKwCount (line :: rest) k
            = count_keyword_occurrences_in_line line k + totalKwCount rest k := by
          simp [totalKwCount]
        rw [ht]
        simp [Nat.add_assoc]
  unfold count_keywords_in_extended_lines
  rw [dictInit_eq keywords hnd]
  calc lines.foldl _ (keywords.map fun k => (k, 0))
      = keywords.map fun k => (k, 0 + totalKwCount lines k) := main lines (fun _ => 0)
    _ = keywords.map fun k => (k, totalKwCount lines k) := by simp

/-- Closed form of the scoring fold of `calculate_score`: the score
accumulates `count * weight` over the entries (zero-count entries contribute
nothing) and the found list collects the keys with positive count, in
order. -/
theorem score_foldl (wts : List (List Char × Rat)) :
    ∀ (entries : List (List Char × Nat)) (a : Rat) (fnd : List (List Char)),
      entries.foldl (fun acc p =>
          if 0 < p.2 then (acc.1 + (p.2 : Rat) * weightsGet wts p.1, acc.2 ++ [p.1])
          else acc)
        (a, fnd)
      = (a + (entries.map fun p => (p.2 : Rat) * weightsGet wts p.1).sum,
         fnd ++ (entries.filter fun p => decide (0 < p.2)).map (fun p => p.1)) := by
  intro entries
  induction entries with
  | nil => intro a fnd; simp
  | cons p rest ih =>
      intro a fnd
      rw [List.foldl_cons]
      by_cases hp : 0 < p.2
      · rw [if_pos hp, ih]
        simp [List.filter_cons, hp, add_assoc]
      · rw [if_neg hp, ih]
        have hz : p.2 = 0 := by omega
        simp [List.filter_cons, hp, hz]

/-- Keys of the positive-count entries of a keyed map. -/
theorem filter_map_keys (tc : List Char → Nat) :
    ∀ ks : List (List Char),
      ((ks.map fun k => (k, tc k)).filter fun p => decide (0 < p.2)).map (fun p => p.1)
        = ks.filter fun k => decide (0 < tc k) := by
  intro ks
  induction ks with
  | nil => rfl
  | cons k ks' ih =>
      by_cases h : 0 < tc k
      · simp [List.filter_cons, h, ih]
      · simp [List.filter_cons, h, ih]

/-- Claim C1 (amended): for distinct keywords, the scorer receives the
window's per-line texts; for each keyword its count is the sum over the
window's lines of the Keyword Matcher's count applied to each line's text;
the score is the sum over keywords of count times weight (default weight 1
for keywords absent from the weight mapping), and a keyword is in the found
set iff its count is positive. -/
theorem claim_C1 (lines keywords : List (List Char)) (weights : List (List Char × Rat))
    (hnd : keywords.Nodup) :
    (calculate_score lines keywords weights).1
        = (keywords.map fun kw =>
            ((totalKwCount lines kw : Nat) : Rat) * weightsGet weights kw).sum
      ∧ ∀ kw, kw ∈ (calculate_score lines keywords weights).2 ↔
          kw ∈ keywords ∧ 0 < totalKwCount lines kw := by
  unfold calculate_score
  rw [count_keywords_eq keywords hnd lines, score_foldl weights]
  constructor
  · rw [List.map_map]
    have hcomp : ((fun p : List Char × Nat => ((p.2 : Nat) : Rat) * weightsGet weights p.1)
          ∘ fun k => (k, totalKwCount lines k))
        = fun kw => ((totalKwCount lines kw : Nat) : Rat) * weightsGet weights kw := by
      funext k
      rfl
    rw [hcomp]
    simp
  · intro kw
    have hkeys := filter_map_keys (fun k => totalKwCount lines k) keywords
    simp only [hkeys, List.nil_append]
    rw [List.mem_filter]
    simp

/-- Claim C1, counterexample: over the two-line window "kredyt"/"kredyt" with
keyword "kredyt" and empty weights, the code's scorer totals the per-line
counts and yields score 2, while the claim's count — one application of the
Keyword Matcher to the newline-joined window text — is 1, predicting score 1:
the occurrence starting the second joined line is preceded by a newline, not
a space. -/
theorem claim_C1_counterexample :
    (calculate_score [litKredyt, litKredyt] [litKredyt] []).1 = 2
      ∧ count_keyword_occurrences_in_line
          (List.intercalate ['\n'] [litKredyt, litKredyt]) litKredyt = 1
      ∧ (calculate_score_joined [litKredyt, litKredyt] [litKredyt] []).1 = 1
      ∧ (2 : Rat) ≠ 1 := by
  have hc : count_keywords_in_extended_lines [litKredyt, litKredyt] [litKredyt]
      = [(litKredyt, 2)] := by decide
  have hj : count_keyword_occurrences_in_line
      (List.intercalate ['\n'] [litKredyt, litKredyt]) litKredyt = 1 := by decide
  refine ⟨?_, hj, ?_, by norm_num⟩
  · simp only [calculate_score, hc, List.foldl_cons, List.foldl_nil]
    norm_num [weightsGet, List.find?_nil]
  · simp only [calculate_score_joined, List.map_cons, List.map_nil, hj,
      List.foldl_cons, List.foldl_nil]
    norm_num [weightsGet, List.find?_nil]

/-- Witness for claim C1 on a concrete window. -/
theorem claim_C1_witness :
    (calculate_score [litKredyt, litKredyt] [litKredyt] []).1
      = ([litKredyt].map fun kw =>
          ((totalKwCount [litKredyt, litKredyt] kw : Nat) : Rat) * weightsGet [] kw).sum :=
  (claim_C1 [litKredyt, litKredyt] [litKredyt] [] (by decide)).1
